import Mathlib

/-!
Verification of the rust-hpke core (draft-irtf-cfrg-hpke-02 implementation).

Shallow embedding of the repository sources:
  - src/src/aead.rs           : sequence counter, nonce mixing, seal/open/export,
                                AeadTag (un)marshalling;
  - src/src/kex/x25519.rs     : X25519 key (un)marshalling and the kex zero check;
  - src/src/single_shot.rs    : single_shot_seal / single_shot_open.

Bytes are modelled as `List Nat` with every element at most 255.  The concrete
cryptographic primitives (the AEAD cipher instance, HKDF, the raw Diffie-Hellman
function) are external crates, out of the repository; they enter the embedding as
explicit function parameters (`AeadImpl`, `Kdf`, `KexImpl`), so every theorem
quantifies over them.  Rust's in-place buffer mutation is made explicit: each
operation returns the result, the buffer after the call, and the context after
the call.
-/

/-- Error enumeration mirroring `HpkeError` of the source crate. -/
inductive HpkeError where
  | InvalidEncoding
  | InvalidKeyExchange
  | InvalidPsk
  | InvalidKdfLength
  | InvalidTag
  | Encryption
  | SeqOverflow
  deriving DecidableEq

/-- Little-endian helper for `increment_seq`: the Rust loop walks the byte array
from the least significant (last) byte backwards, so we recurse over the
reversed list.  Mirrors aead.rs lines 58-74: a byte below 255 is incremented and
the walk stops; a byte equal to 255 is zeroed and the carry moves on.  The
boolean is `true` when an increment happened (Rust `Ok(())`) and `false` on
carry-out of the whole array (Rust `Err(())`); the list is the mutated array. -/
def incSeqRev : List Nat → Bool × List Nat
  | [] => (false, [])
  | b :: rest =>
    if b < 255 then (true, (b + 1) :: rest)
    else
      let r := incSeqRev rest
      (r.1, 0 :: r.2)

/-- Embedding of `increment_seq` (aead.rs lines 58-74) on big-endian byte
strings.  Returns the success flag and the array after the in-place mutation
(on carry-out the Rust loop has zeroed every byte before returning `Err`). -/
def increment_seq (arr : List Nat) : Bool × List Nat :=
  let r := incSeqRev arr.reverse
  (r.1, r.2.reverse)

/-- Value of a byte string read as a little-endian unsigned integer. -/
def leVal : List Nat → Nat
  | [] => 0
  | b :: rest => b + 256 * leVal rest

/-- Value of a byte string read as a big-endian unsigned integer. -/
def beVal (s : List Nat) : Nat := leVal s.reverse

/-- Embedding of `mix_nonce` (aead.rs lines 82-93): bytewise XOR of the base
nonce with the sequence bytes, via the zip of the two byte strings. -/
def mix_nonce (base_nonce seq : List Nat) : List Nat :=
  List.zipWith Nat.xor base_nonce seq

/-- External AEAD primitive (the `aead` crate's `encrypt_in_place_detached` /
`decrypt_in_place_detached`), abstracted.  `encrypt nonce aad buf` returns the
tag on success (`none` models the crate's error) together with the buffer after
the call; `decrypt nonce aad buf tag` returns the success flag together with
the buffer after the call (undefined contents on failure, per the AEAD
contract). -/
structure AeadImpl where
  encrypt : List Nat → List Nat → List Nat → Option (List Nat) × List Nat
  decrypt : List Nat → List Nat → List Nat → List Nat → Bool × List Nat

/-- State of an HPKE encryption context (`AeadCtx` of aead.rs lines 142-153).
The `encryptor` field of the source (the keyed AEAD instance) is immutable for
the life of the context and is passed separately as an `AeadImpl`. -/
structure AeadCtx where
  overflowed : Bool
  nonce : List Nat
  exporterSecret : List Nat
  seq : List Nat
  deriving DecidableEq

/-- Embedding of `AeadCtxS::seal` (aead.rs lines 315-341).  Returns the result
(tag or error), the plaintext buffer after the call, and the context after the
call.  Named `sealCtx` because `seal` is reserved in Lean. -/
def sealCtx (imp : AeadImpl) (ctx : AeadCtx) (plaintext aad : List Nat) :
    Except HpkeError (List Nat) × List Nat × AeadCtx :=
  if ctx.overflowed then
    (Except.error HpkeError.SeqOverflow, plaintext, ctx)
  else
    let nonce := mix_nonce ctx.nonce ctx.seq
    match imp.encrypt nonce aad plaintext with
    | (none, buf) => (Except.error HpkeError.Encryption, buf, ctx)
    | (some tag, buf) =>
      let incr := increment_seq ctx.seq
      if incr.1 then
        (Except.ok tag, buf, { ctx with seq := incr.2 })
      else
        (Except.ok tag, buf, { ctx with seq := incr.2, overflowed := true })

/-- Embedding of `AeadCtxR::open` (aead.rs lines 237-268).  Returns the result,
the ciphertext buffer after the call, and the context after the call.  Named
`openCtx` because `open` is reserved in Lean. -/
def openCtx (imp : AeadImpl) (ctx : AeadCtx) (ciphertext aad tag : List Nat) :
    Except HpkeError Unit × List Nat × AeadCtx :=
  if ctx.overflowed then
    (Except.error HpkeError.SeqOverflow, ciphertext, ctx)
  else
    let nonce := mix_nonce ctx.nonce ctx.seq
    match imp.decrypt nonce aad ciphertext tag with
    | (false, buf) => (Except.error HpkeError.InvalidTag, buf, ctx)
    | (true, buf) =>
      let incr := increment_seq ctx.seq
      if incr.1 then
        (Except.ok (), buf, { ctx with seq := incr.2 })
      else
        (Except.ok (), buf, { ctx with seq := incr.2, overflowed := true })

/-- Wellformedness of a byte string: every element fits in one byte. -/
def bytesWF (s : List Nat) : Prop := ∀ b ∈ s, b ≤ 255

instance (s : List Nat) : Decidable (bytesWF s) := by
  unfold bytesWF; infer_instance

-- Basic facts about the ripple-carry increment.

theorem incSeqRev_length (l : List Nat) : (incSeqRev l).2.length = l.length := by
  induction l with
  | nil => rfl
  | cons b rest ih =>
    by_cases h : b < 255 <;> simp [incSeqRev, h, ih]

theorem incSeqRev_wf (l : List Nat) (wf : ∀ b ∈ l, b ≤ 255) :
    ∀ b ∈ (incSeqRev l).2, b ≤ 255 := by
  induction l with
  | nil => simp [incSeqRev]
  | cons b rest ih =>
    by_cases h : b < 255
    · simp only [incSeqRev, if_pos h]
      intro x hx
      rcases List.mem_cons.mp hx with h1 | h1
      · omega
      · exact wf x (List.mem_cons_of_mem _ h1)
    · simp only [incSeqRev, if_neg h]
      intro x hx
      rcases List.mem_cons.mp hx with h1 | h1
      · omega
      · exact ih (fun y hy => wf y (List.mem_cons_of_mem _ hy)) x h1

theorem incSeqRev_true (l : List Nat) (wf : ∀ b ∈ l, b ≤ 255)
    (h : (incSeqRev l).1 = true) : leVal (incSeqRev l).2 = leVal l + 1 := by
  induction l with
  | nil => simp [incSeqRev] at h
  | cons b rest ih =>
    by_cases hb : b < 255
    · simp [incSeqRev, hb, leVal]
      ring
    · have hb' : b = 255 := by
        have := wf b (List.mem_cons_self _ _)
        omega
      simp only [incSeqRev, if_neg hb] at h ⊢
      have ihv := ih (fun y hy => wf y (List.mem_cons_of_mem _ hy)) h
      simp [leVal, ihv, hb']
      ring

theorem incSeqRev_false (l : List Nat) (wf : ∀ b ∈ l, b ≤ 255)
    (h : (incSeqRev l).1 = false) :
    l = List.replicate l.length 255 ∧ (incSeqRev l).2 = List.replicate l.length 0 := by
  induction l with
  | nil => simp [incSeqRev]
  | cons b rest ih =>
    by_cases hb : b < 255
    · simp [incSeqRev, hb] at h
    · have hb' : b = 255 := by
        have := wf b (List.mem_cons_self _ _)
        omega
      simp only [incSeqRev, if_neg hb] at h ⊢
      have ihv := ih (fun y hy => wf y (List.mem_cons_of_mem _ hy)) h
      constructor
      · simpa [List.replicate_succ, hb'] using ihv.1
      · simpa [List.replicate_succ, incSeqRev_length] using ihv.2

theorem incSeqRev_replicate_max (n : Nat) :
    incSeqRev (List.replicate n 255) = (false, List.replicate n 0) := by
  induction n with
  | zero => rfl
  | succ k ih => simp [List.replicate_succ, incSeqRev, ih]

-- Transfer of the increment facts through the big-endian wrapper.

theorem leVal_lt (l : List Nat) (wf : ∀ b ∈ l, b ≤ 255) :
    leVal l < 256 ^ l.length := by
  induction l with
  | nil => simp [leVal]
  | cons b rest ih =>
    have hb := wf b (List.mem_cons_self _ _)
    have hr := ih (fun y hy => wf y (List.mem_cons_of_mem _ hy))
    simp only [leVal, List.length_cons, pow_succ]
    omega

theorem leVal_replicate_zero (n : Nat) : leVal (List.replicate n 0) = 0 := by
  induction n with
  | zero => rfl
  | succ k ih => simp [List.replicate_succ, leVal, ih]

theorem leVal_replicate_max (n : Nat) :
    leVal (List.replicate n 255) = 256 ^ n - 1 := by
  induction n with
  | zero => rfl
  | succ k ih =>
    have : 1 ≤ 256 ^ k := Nat.one_le_pow _ _ (by norm_num)
    simp only [List.replicate_succ, leVal, ih, pow_succ]
    omega

theorem beVal_replicate_zero (n : Nat) : beVal (List.replicate n 0) = 0 := by
  simp [beVal, List.reverse_replicate, leVal_replicate_zero]

theorem beVal_replicate_max (n : Nat) :
    beVal (List.replicate n 255) = 256 ^ n - 1 := by
  simp [beVal, List.reverse_replicate, leVal_replicate_max]

theorem beVal_lt (s : List Nat) (wf : bytesWF s) : beVal s < 256 ^ s.length := by
  have := leVal_lt s.reverse (fun b hb => wf b (List.mem_reverse.mp hb))
  simpa [beVal] using this

/-- Master specification of `increment_seq`: length and wellformedness are
preserved; on success the big-endian value goes up by exactly one; the carry
can only run out when every byte is 255, and then the array has been zeroed. -/
theorem increment_seq_spec (s : List Nat) (wf : bytesWF s) :
    (increment_seq s).2.length = s.length ∧
    bytesWF (increment_seq s).2 ∧
    ((increment_seq s).1 = true → beVal (increment_seq s).2 = beVal s + 1) ∧
    ((increment_seq s).1 = false →
      s = List.replicate s.length 255 ∧
      (increment_seq s).2 = List.replicate s.length 0) := by
  have wfr : ∀ b ∈ s.reverse, b ≤ 255 := fun b hb => wf b (List.mem_reverse.mp hb)
  refine ⟨?_, ?_, ?_, ?_⟩
  · simp [increment_seq, incSeqRev_length]
  · intro b hb
    simp only [increment_seq, List.mem_reverse] at hb
    exact incSeqRev_wf _ wfr b hb
  · intro h
    simp only [increment_seq] at h ⊢
    have := incSeqRev_true s.reverse wfr h
    simpa [beVal] using this
  · intro h
    simp only [increment_seq] at h ⊢
    have hv := incSeqRev_false s.reverse wfr h
    constructor
    · have := hv.1
      have hs : s = (List.replicate s.reverse.length 255).reverse := by
        conv_lhs => rw [← List.reverse_reverse s, this]
      simpa [List.reverse_replicate] using hs
    · rw [hv.2]
      simp [List.reverse_replicate]

theorem increment_seq_replicate_max (n : Nat) :
    increment_seq (List.replicate n 255) = (false, List.replicate n 0) := by
  simp [increment_seq, List.reverse_replicate, incSeqRev_replicate_max]

theorem increment_seq_true_of_ne_max (s : List Nat) (wf : bytesWF s)
    (h : s ≠ List.replicate s.length 255) : (increment_seq s).1 = true := by
  rcases Bool.eq_false_or_eq_true (increment_seq s).1 with ht | hf
  · exact ht
  · exact absurd ((increment_seq_spec s wf).2.2.2 hf).1 h

/-- One successful seal or open operation on a context, by any AEAD instance
and any buffers: the observable state transition of the context. -/
def succStep (c c' : AeadCtx) : Prop :=
  (∃ imp pt aad tag buf, sealCtx imp c pt aad = (Except.ok tag, buf, c')) ∨
  (∃ imp ct aad tag buf, openCtx imp c ct aad tag = (Except.ok (), buf, c'))

/-- Chains of N successful seal/open operations. -/
inductive opsChain : Nat → AeadCtx → AeadCtx → Prop where
  | zero (c : AeadCtx) : opsChain 0 c c
  | succ {n : Nat} {c c' c'' : AeadCtx} (h : opsChain n c c') (hs : succStep c' c'') :
      opsChain (n + 1) c c''

/-- Analysis of a successful seal: only possible on a non-overflowed context;
the new context carries the incremented counter, with the overflow flag raised
exactly when the carry ran out. -/
theorem sealCtx_ok_cases {imp : AeadImpl} {ctx : AeadCtx} {pt aad tag buf : List Nat}
    {c' : AeadCtx} (h : sealCtx imp ctx pt aad = (Except.ok tag, buf, c')) :
    ctx.overflowed = false ∧
    ((increment_seq ctx.seq).1 = true ∧ c' = { ctx with seq := (increment_seq ctx.seq).2 } ∨
     (increment_seq ctx.seq).1 = false ∧
       c' = { ctx with seq := (increment_seq ctx.seq).2, overflowed := true }) := by
  cases hov : ctx.overflowed with
  | true => simp [sealCtx, hov] at h
  | false =>
    simp only [sealCtx, hov, Bool.false_eq_true, if_false] at h
    rcases henc : imp.encrypt (mix_nonce ctx.nonce ctx.seq) aad pt with ⟨otag, buf2⟩
    rw [henc] at h
    cases otag with
    | none => simp at h
    | some t =>
      cases hinc : (increment_seq ctx.seq).1 with
      | false =>
        simp only [hinc, Bool.false_eq_true, if_false, Prod.mk.injEq] at h
        refine ⟨rfl, Or.inr ⟨rfl, ?_⟩⟩
        rw [← h.2.2]
      | true =>
        simp only [hinc, if_true, Prod.mk.injEq] at h
        refine ⟨rfl, Or.inl ⟨rfl, ?_⟩⟩
        rw [← h.2.2]

/-- Analysis of a successful open, mirroring `sealCtx_ok_cases`. -/
theorem openCtx_ok_cases {imp : AeadImpl} {ctx : AeadCtx} {ct aad tag buf : List Nat}
    {c' : AeadCtx} (h : openCtx imp ctx ct aad tag = (Except.ok (), buf, c')) :
    ctx.overflowed = false ∧
    ((increment_seq ctx.seq).1 = true ∧ c' = { ctx with seq := (increment_seq ctx.seq).2 } ∨
     (increment_seq ctx.seq).1 = false ∧
       c' = { ctx with seq := (increment_seq ctx.seq).2, overflowed := true }) := by
  cases hov : ctx.overflowed with
  | true => simp [openCtx, hov] at h
  | false =>
    simp only [openCtx, hov, Bool.false_eq_true, if_false] at h
    rcases hdec : imp.decrypt (mix_nonce ctx.nonce ctx.seq) aad ct tag with ⟨ok, buf2⟩
    rw [hdec] at h
    cases ok with
    | false => simp at h
    | true =>
      cases hinc : (increment_seq ctx.seq).1 with
      | false =>
        simp only [hinc, Bool.false_eq_true, if_false, Prod.mk.injEq] at h
        refine ⟨rfl, Or.inr ⟨rfl, ?_⟩⟩
        rw [← h.2.2]
      | true =>
        simp only [hinc, if_true, Prod.mk.injEq] at h
        refine ⟨rfl, Or.inl ⟨rfl, ?_⟩⟩
        rw [← h.2.2]

/-- Analysis of a successful operation of either polarity. -/
theorem succStep_cases {c c' : AeadCtx} (h : succStep c c') :
    c.overflowed = false ∧
    ((increment_seq c.seq).1 = true ∧ c' = { c with seq := (increment_seq c.seq).2 } ∨
     (increment_seq c.seq).1 = false ∧
       c' = { c with seq := (increment_seq c.seq).2, overflowed := true }) := by
  rcases h with ⟨imp, pt, aad, tag, buf, hs⟩ | ⟨imp, ct, aad, tag, buf, hs⟩
  · exact sealCtx_ok_cases hs
  · exact openCtx_ok_cases hs

/-- A successful operation never touches the base nonce or the exporter
secret. -/
theorem succStep_preserves {c c' : AeadCtx} (h : succStep c c') :
    c'.nonce = c.nonce ∧ c'.exporterSecret = c.exporterSecret := by
  rcases (succStep_cases h).2 with ⟨-, hc⟩ | ⟨-, hc⟩ <;> rw [hc]
  · exact ⟨rfl, rfl⟩
  · exact ⟨rfl, rfl⟩

theorem opsChain_preserves {N : Nat} {c c' : AeadCtx} (h : opsChain N c c') :
    c'.nonce = c.nonce ∧ c'.exporterSecret = c.exporterSecret := by
  induction h with
  | zero => exact ⟨rfl, rfl⟩
  | succ hch hs ih =>
    have := succStep_preserves hs
    exact ⟨this.1.trans ih.1, this.2.trans ih.2⟩

/-- Inversion of a nonempty chain. -/
theorem opsChain_succ_inv {N : Nat} {c c'' : AeadCtx} (h : opsChain (N + 1) c c'') :
    ∃ c', opsChain N c c' ∧ succStep c' c'' := by
  cases h with
  | succ hch hs => exact ⟨_, hch, hs⟩

/-- State invariant of a context started fresh with an n-byte zero counter:
after N successful operations either the flag is still down and the counter
reads exactly N, or the flag is up, the counter has wrapped to zero, and
exactly 256 ^ n operations have happened. -/
theorem opsChain_invariant {n : Nat} : ∀ {N : Nat} {c c' : AeadCtx},
    opsChain N c c' → c.seq = List.replicate n 0 → c.overflowed = false →
    c'.seq.length = n ∧ bytesWF c'.seq ∧
    (c'.overflowed = false ∧ beVal c'.seq = N ∧ N < 256 ^ n ∨
     c'.overflowed = true ∧ c'.seq = List.replicate n 0 ∧ N = 256 ^ n) := by
  intro N
  induction N with
  | zero =>
    intro c c' h hseq hov
    cases h
    refine ⟨by simp [hseq], ?_, Or.inl ⟨hov, by simp [hseq, beVal_replicate_zero], ?_⟩⟩
    · intro b hb
      rw [hseq] at hb
      have := List.eq_of_mem_replicate hb
      omega
    · exact Nat.one_le_pow _ _ (by norm_num)
  | succ m ih =>
    intro c c'' h hseq hov
    obtain ⟨cm, hch, hs⟩ := opsChain_succ_inv h
    obtain ⟨hlen, hwf, hstate⟩ := ih hch hseq hov
    obtain ⟨hovm, hstep⟩ := succStep_cases hs
    rcases hstate with ⟨hovf, hval, hlt⟩ | ⟨hflag, hzero, hcount⟩
    · have hspec := increment_seq_spec cm.seq hwf
      rcases hstep with ⟨hinc, hc⟩ | ⟨hinc, hc⟩
      · subst hc
        refine ⟨hspec.1.trans hlen, hspec.2.1, Or.inl ⟨hovf, ?_, ?_⟩⟩
        · rw [hspec.2.2.1 hinc, hval]
        · have hb := beVal_lt _ hspec.2.1
          rw [hspec.1, hlen] at hb
          rw [hspec.2.2.1 hinc, hval] at hb
          exact hb
      · subst hc
        have hmax := hspec.2.2.2 hinc
        refine ⟨hspec.1.trans hlen, hspec.2.1, Or.inr ⟨rfl, ?_, ?_⟩⟩
        · rw [hmax.2, hlen]
        · have hv : beVal cm.seq = 256 ^ n - 1 := by
            rw [hmax.1, hlen, beVal_replicate_max]
          have hpos : 1 ≤ 256 ^ n := Nat.one_le_pow _ _ (by norm_num)
          omega
    · rw [hflag] at hovm
      exact absurd hovm (by simp)

/-- A concrete AEAD instance whose operations always succeed, used to build
explicit runs of the context state machine. -/
def imp0 : AeadImpl :=
  { encrypt := fun _ _ pt => (some [], pt)
    decrypt := fun _ _ ct _ => (true, ct) }

theorem sealCtx_imp0 (c : AeadCtx) (h : c.overflowed = false) :
    sealCtx imp0 c [] [] =
      (Except.ok [], [],
        if (increment_seq c.seq).1 then { c with seq := (increment_seq c.seq).2 }
        else { c with seq := (increment_seq c.seq).2, overflowed := true }) := by
  simp only [sealCtx, h, Bool.false_eq_true, if_false, imp0]
  split <;> rfl

theorem succStep_exists (c : AeadCtx) (h : c.overflowed = false) :
    ∃ c', succStep c c' := by
  refine ⟨_, Or.inl ⟨imp0, [], [], [], [], sealCtx_imp0 c h⟩⟩

/-- From a fresh context, a run of any length up to 256 ^ n exists (every
operation in it succeeding). -/
theorem opsChain_exists {n : Nat} (c : AeadCtx) (hseq : c.seq = List.replicate n 0)
    (hov : c.overflowed = false) :
    ∀ k, k ≤ 256 ^ n → ∃ c', opsChain k c c' := by
  intro k
  induction k with
  | zero => exact fun _ => ⟨c, opsChain.zero c⟩
  | succ m ih =>
    intro hm
    obtain ⟨c', hch⟩ := ih (Nat.le_of_succ_le hm)
    have hinv := opsChain_invariant hch hseq hov
    have hovf : c'.overflowed = false := by
      rcases hinv.2.2 with ⟨h1, -, -⟩ | ⟨-, -, h3⟩
      · exact h1
      · omega
    obtain ⟨c'', hs⟩ := succStep_exists c' hovf
    exact ⟨c'', opsChain.succ hch hs⟩

/-- External HKDF capability.  `Nh` is the hash output size; `hkdfExpand prk
info L` is the raw HKDF-Expand of the external hkdf crate, abstracted as a
total deterministic function (its only failure condition, an output longer
than 255 hash blocks, is made explicit in `labeledExpand` below). -/
structure Kdf where
  Nh : Nat
  hkdfExpand : List Nat → List Nat → Nat → List Nat

/-- Big-endian two-byte encoding of a length, as used by labeled expand. -/
def encodeU16 (L : Nat) : List Nat := [L / 256 % 256, L % 256]

/-- Byte string of the draft-02 label prefix `RFCXXXX` followed by a space. -/
def rfcLabelBytes : List Nat := [82, 70, 67, 88, 88, 88, 88, 32]

/-- Byte string of the exporter label `sec`. -/
def secLabelBytes : List Nat := [115, 101, 99]

/-- Modelled from the spec: `labeled_expand` lives in kdf.rs, which is not part
of the sources under review; per spec section 4.2 it is HKDF-Expand of
`encode_u16(L) ‖ "RFCXXXX " ‖ suite_id ‖ label ‖ info`, failing with
`InvalidKdfLength` exactly when `L > 255 · Nh`. -/
def labeledExpand (k : Kdf) (suiteId prk label info : List Nat) (L : Nat) :
    Except HpkeError (List Nat) :=
  if 255 * k.Nh < L then Except.error HpkeError.InvalidKdfLength
  else Except.ok (k.hkdfExpand prk (encodeU16 L ++ rfcLabelBytes ++ suiteId ++ label ++ info) L)

/-- Embedding of `AeadCtx::export` (aead.rs lines 189-200): a labeled expand of
the context's exporter secret under the label `sec`, filling a buffer of length
`L`.  The receiver and sender wrappers (aead.rs lines 277-280 and 350-353)
delegate here unchanged.  The call takes `&self`: it returns no context, which
mirrors that it cannot mutate one. -/
def exportCtx (k : Kdf) (suiteId : List Nat) (ctx : AeadCtx) (info : List Nat) (L : Nat) :
    Except HpkeError (List Nat) :=
  labeledExpand k suiteId ctx.exporterSecret secLabelBytes info L

/-- Embedding of `PublicKey::unmarshal` (x25519.rs lines 32-45): a 32-byte
length check, then a byte copy.  Modelled from the spec where the dalek crate
is the missing part: `x25519_dalek::PublicKey::from` on raw bytes and
`as_bytes` are pure byte copies with no clamping (spec section 4.1). -/
def pubkey_unmarshal (encoded : List Nat) : Except HpkeError (List Nat) :=
  if encoded.length ≠ 32 then Except.error HpkeError.InvalidEncoding
  else Except.ok encoded

/-- Embedding of `PublicKey::marshal` (x25519.rs lines 23-30): a byte copy of
the key's 32 bytes. -/
def pubkey_marshal (pk : List Nat) : List Nat := pk

/-- Embedding of `PrivateKey::unmarshal` (x25519.rs lines 55-68): a 32-byte
length check, then a byte copy.  Modelled from the spec where the dalek crate
is the missing part: per spec section 4.1 private-key (de)serialization is a
pure byte copy of the fixed-width encoding. -/
def privkey_unmarshal (encoded : List Nat) : Except HpkeError (List Nat) :=
  if encoded.length ≠ 32 then Except.error HpkeError.InvalidEncoding
  else Except.ok encoded

/-- Embedding of `PrivateKey::marshal` (x25519.rs lines 47-54). -/
def privkey_marshal (sk : List Nat) : List Nat := sk

/-- Embedding of `AeadTag::unmarshal` (aead.rs lines 128-139): a length check
against the AEAD's tag size, then a byte copy.  The tag size is 16 for all
three supported AEADs (spec sections 3 and 6). -/
def tag_unmarshal (encoded : List Nat) : Except HpkeError (List Nat) :=
  if encoded.length ≠ 16 then Except.error HpkeError.InvalidEncoding
  else Except.ok encoded

/-- External raw Diffie-Hellman primitive (`x25519_dalek::diffie_hellman`),
abstracted: `dh sk pk` is the raw 32-byte DH output. -/
structure KexImpl where
  dh : List Nat → List Nat → List Nat

/-- Embedding of `X25519::kex` (x25519.rs lines 103-112): run the raw DH and
reject an all-zero result with `InvalidKeyExchange` (the constant-time
comparison against `[0u8; 32]` is byte-string equality). -/
def kex (K : KexImpl) (sk pk : List Nat) : Except HpkeError (List Nat) :=
  let res := K.dh sk pk
  if res = List.replicate 32 0 then Except.error HpkeError.InvalidKeyExchange
  else Except.ok res

/-- Embedding of `single_shot_seal` (single_shot.rs lines 26-47): a
`setup_sender` followed by one `seal`, each error returned unchanged.
`setup_sender` lives in setup.rs, outside the sources under review, so it is a
function parameter here, over opaque types for the mode, recipient key, info
string and RNG state; it yields the encapped key bytes and the fresh context.
Returns the result (encapped key and tag, or error) and the buffer after the
call. -/
def single_shot_seal {M P I R : Type}
    (setup_sender : M → P → I → R → Except HpkeError (List Nat × AeadCtx))
    (imp : AeadImpl) (mode : M) (pk_recip : P) (info : I) (plaintext aad : List Nat)
    (csprng : R) : Except HpkeError (List Nat × List Nat) × List Nat :=
  match setup_sender mode pk_recip info csprng with
  | Except.error e => (Except.error e, plaintext)
  | Except.ok (encapped_key, aead_ctx) =>
    match sealCtx imp aead_ctx plaintext aad with
    | (Except.error e, buf, _) => (Except.error e, buf)
    | (Except.ok tag, buf, _) => (Except.ok (encapped_key, tag), buf)

/-- Embedding of `single_shot_open` (single_shot.rs lines 61-79): a
`setup_receiver` followed by one `open`, each error returned unchanged.
`setup_receiver` is a function parameter for the same reason as above. -/
def single_shot_open {M S E I : Type}
    (setup_receiver : M → S → E → I → Except HpkeError AeadCtx)
    (imp : AeadImpl) (mode : M) (sk_recip : S) (encapped_key : E) (info : I)
    (ciphertext aad tag : List Nat) : Except HpkeError Unit × List Nat :=
  match setup_receiver mode sk_recip encapped_key info with
  | Except.error e => (Except.error e, ciphertext)
  | Except.ok aead_ctx =>
    match openCtx imp aead_ctx ciphertext aad tag with
    | (r, buf, _) => (r, buf)

/-- Modelled from the spec: the composition the claim describes for
`single_shot_seal`, written independently of the source function: call
`setup_sender`, propagate its error unchanged, then perform one `seal` on the
resulting context, propagate its error unchanged, and otherwise pair the
encapped key with the tag, the buffer being whatever the seal left. -/
def single_shot_seal_spec {M P I R : Type}
    (setup_sender : M → P → I → R → Except HpkeError (List Nat × AeadCtx))
    (imp : AeadImpl) (mode : M) (pk_recip : P) (info : I) (plaintext aad : List Nat)
    (csprng : R) : Except HpkeError (List Nat × List Nat) × List Nat :=
  match setup_sender mode pk_recip info csprng with
  | Except.error e => (Except.error e, plaintext)
  | Except.ok (encapped_key, aead_ctx) =>
    ((sealCtx imp aead_ctx plaintext aad).1.map (fun tag => (encapped_key, tag)),
      (sealCtx imp aead_ctx plaintext aad).2.1)

/-- Modelled from the spec: the composition the claim describes for
`single_shot_open`: call `setup_receiver`, propagate its error unchanged, then
perform one `open` on the resulting context, returning its result and
buffer. -/
def single_shot_open_spec {M S E I : Type}
    (setup_receiver : M → S → E → I → Except HpkeError AeadCtx)
    (imp : AeadImpl) (mode : M) (sk_recip : S) (encapped_key : E) (info : I)
    (ciphertext aad tag : List Nat) : Except HpkeError Unit × List Nat :=
  match setup_receiver mode sk_recip encapped_key info with
  | Except.error e => (Except.error e, ciphertext)
  | Except.ok aead_ctx =>
    ((openCtx imp aead_ctx ciphertext aad tag).1,
      (openCtx imp aead_ctx ciphertext aad tag).2.1)

/-- A seal returning an error leaves the context untouched. -/
theorem sealCtx_error_ctx {imp : AeadImpl} {ctx : AeadCtx} {pt aad : List Nat}
    {e : HpkeError} {buf : List Nat} {c' : AeadCtx}
    (h : sealCtx imp ctx pt aad = (Except.error e, buf, c')) : c' = ctx := by
  cases hov : ctx.overflowed with
  | true =>
    simp only [sealCtx, hov, if_true, Prod.mk.injEq] at h
    exact h.2.2.symm
  | false =>
    simp only [sealCtx, hov, Bool.false_eq_true, if_false] at h
    rcases henc : imp.encrypt (mix_nonce ctx.nonce ctx.seq) aad pt with ⟨otag, buf2⟩
    rw [henc] at h
    cases otag with
    | none =>
      simp only [Prod.mk.injEq] at h
      exact h.2.2.symm
    | some t =>
      cases hinc : (increment_seq ctx.seq).1 with
      | false => simp [hinc] at h
      | true => simp [hinc] at h

/-- An open returning an error leaves the context untouched. -/
theorem openCtx_error_ctx {imp : AeadImpl} {ctx : AeadCtx} {ct aad tag : List Nat}
    {e : HpkeError} {buf : List Nat} {c' : AeadCtx}
    (h : openCtx imp ctx ct aad tag = (Except.error e, buf, c')) : c' = ctx := by
  cases hov : ctx.overflowed with
  | true =>
    simp only [openCtx, hov, if_true, Prod.mk.injEq] at h
    exact h.2.2.symm
  | false =>
    simp only [openCtx, hov, Bool.false_eq_true, if_false] at h
    rcases hdec : imp.decrypt (mix_nonce ctx.nonce ctx.seq) aad ct tag with ⟨ok, buf2⟩
    rw [hdec] at h
    cases ok with
    | false =>
      simp only [Prod.mk.injEq] at h
      exact h.2.2.symm
    | true =>
      cases hinc : (increment_seq ctx.seq).1 with
      | false => simp [hinc] at h
      | true => simp [hinc] at h

/-- Properties of the context produced by a successful operation: base nonce
and exporter secret are untouched; away from the maximum the counter advances
by one with the flag unchanged; at the maximum the counter wraps to zero and
the flag is raised. -/
theorem incr_ctx_props (ctx : AeadCtx) (hwf : bytesWF ctx.seq) (c' : AeadCtx)
    (h : (increment_seq ctx.seq).1 = true ∧ c' = { ctx with seq := (increment_seq ctx.seq).2 } ∨
         (increment_seq ctx.seq).1 = false ∧
           c' = { ctx with seq := (increment_seq ctx.seq).2, overflowed := true }) :
    c'.nonce = ctx.nonce ∧ c'.exporterSecret = ctx.exporterSecret ∧
    (ctx.seq ≠ List.replicate ctx.seq.length 255 →
      beVal c'.seq = beVal ctx.seq + 1 ∧ c'.overflowed = ctx.overflowed) ∧
    (ctx.seq = List.replicate ctx.seq.length 255 →
      c'.seq = List.replicate ctx.seq.length 0 ∧ c'.overflowed = true) := by
  have hspec := increment_seq_spec ctx.seq hwf
  rcases h with ⟨hinc, hc⟩ | ⟨hinc, hc⟩
  · subst hc
    refine ⟨rfl, rfl, fun _ => ⟨hspec.2.2.1 hinc, rfl⟩, fun hmax => ?_⟩
    rw [hmax, increment_seq_replicate_max] at hinc
    simp at hinc
  · subst hc
    have hm := hspec.2.2.2 hinc
    exact ⟨rfl, rfl, fun hne => absurd hm.1 hne, fun _ => ⟨hm.2, rfl⟩⟩

/-- Elementwise description of the bytewise XOR of two byte strings. -/
theorem zipWith_xor_getD : ∀ (as bs : List Nat) (i : Nat), i < as.length → i < bs.length →
    (List.zipWith Nat.xor as bs).getD i 0 = Nat.xor (as.getD i 0) (bs.getD i 0) := by
  intro as
  induction as with
  | nil => intro bs i h1 h2; simp at h1
  | cons a as ih =>
    intro bs i h1 h2
    cases bs with
    | nil => simp at h2
    | cons b bs =>
      cases i with
      | zero => simp [List.zipWith]
      | succ j =>
        simp only [List.zipWith, List.getD_cons_succ]
        exact ih bs j (by simpa using h1) (by simpa using h2)

/-- C1: on a context whose overflowed flag is set, every seal and every open
returns SeqOverflow, leaving the buffer and the context unchanged; the result
does not depend on the AEAD instance at all, so in particular open refuses
before any MAC check, for every ciphertext and tag input. -/
theorem seal_open_refuse_after_overflow (imp : AeadImpl) (ctx : AeadCtx)
    (h : ctx.overflowed = true) (pt aad ct tag : List Nat) :
    sealCtx imp ctx pt aad = (Except.error HpkeError.SeqOverflow, pt, ctx) ∧
    openCtx imp ctx ct aad tag = (Except.error HpkeError.SeqOverflow, ct, ctx) := by
  constructor <;> simp [sealCtx, openCtx, h]

theorem seal_open_refuse_after_overflow_witness :
    (AeadCtx.mk true [1, 2] [3] [0, 5]).overflowed = true ∧
    sealCtx imp0 (AeadCtx.mk true [1, 2] [3] [0, 5]) [9] [8] =
      (Except.error HpkeError.SeqOverflow, [9], AeadCtx.mk true [1, 2] [3] [0, 5]) ∧
    openCtx imp0 (AeadCtx.mk true [1, 2] [3] [0, 5]) [7] [8] [6] =
      (Except.error HpkeError.SeqOverflow, [7], AeadCtx.mk true [1, 2] [3] [0, 5]) :=
  ⟨rfl, (seal_open_refuse_after_overflow imp0 _ rfl [9] [8] [7] [6]).1,
    (seal_open_refuse_after_overflow imp0 _ rfl [9] [8] [7] [6]).2⟩

/-- C3: from a fresh context (all-zero n-byte counter, flag down), after any
run of N successful seal or open operations with N below 256 ^ n, the counter
read as a big-endian integer equals exactly N. -/
theorem seq_equals_op_count (n N : Nat) (ctx ctx' : AeadCtx)
    (hseq : ctx.seq = List.replicate n 0) (hov : ctx.overflowed = false)
    (hchain : opsChain N ctx ctx') (hN : N < 256 ^ n) :
    beVal ctx'.seq = N := by
  obtain ⟨-, -, hstate⟩ := opsChain_invariant hchain hseq hov
  rcases hstate with ⟨-, hval, -⟩ | ⟨-, -, hcount⟩
  · exact hval
  · omega

theorem seq_equals_op_count_witness :
    beVal (AeadCtx.mk false [0] [] [2]).seq = 2 :=
  seq_equals_op_count 1 2 (AeadCtx.mk false [0] [] [0]) (AeadCtx.mk false [0] [] [2])
    rfl rfl
    (@opsChain.succ 1 (AeadCtx.mk false [0] [] [0]) (AeadCtx.mk false [0] [] [1])
      (AeadCtx.mk false [0] [] [2])
      (@opsChain.succ 0 (AeadCtx.mk false [0] [] [0]) (AeadCtx.mk false [0] [] [0])
        (AeadCtx.mk false [0] [] [1]) (opsChain.zero _)
        (Or.inl ⟨imp0, [], [], [], [], rfl⟩))
      (Or.inl ⟨imp0, [], [], [], [], rfl⟩))
    (by norm_num)

/-- C2 (amended): on a context whose counter holds the maximum value (all 0xFF
bytes) with the flag down, a seal or open still succeeds (returning the tag or
plaintext) and only afterwards raises the flag (the counter wrapping to zero);
runs of successful operations from a fresh context are bounded by 256 ^ n and a
run of exactly 256 ^ n exists, so the usable message count per context is
2 ^ (8·Nn) and the final successful operation is the one that triggers the
flag, not the first one refused. -/
theorem overflow_boundary (n : Nat) (imp : AeadImpl) (ctx : AeadCtx)
    (hseq : ctx.seq = List.replicate n 255) (hov : ctx.overflowed = false)
    (pt aad ct tagIn : List Nat) :
    (∀ tag buf, imp.encrypt (mix_nonce ctx.nonce ctx.seq) aad pt = (some tag, buf) →
      sealCtx imp ctx pt aad =
        (Except.ok tag, buf,
          { ctx with seq := List.replicate n 0, overflowed := true })) ∧
    (∀ buf, imp.decrypt (mix_nonce ctx.nonce ctx.seq) aad ct tagIn = (true, buf) →
      openCtx imp ctx ct aad tagIn =
        (Except.ok (), buf,
          { ctx with seq := List.replicate n 0, overflowed := true })) ∧
    (∀ N c₀ c', c₀.seq = List.replicate n 0 → c₀.overflowed = false →
      opsChain N c₀ c' → N ≤ 256 ^ n) ∧
    (∀ c₀ : AeadCtx, c₀.seq = List.replicate n 0 → c₀.overflowed = false →
      ∃ c', opsChain (256 ^ n) c₀ c') := by
  refine ⟨?_, ?_, ?_, ?_⟩
  · intro tag buf henc
    simp only [sealCtx, hov, Bool.false_eq_true, if_false]
    rw [henc]
    simp only [hseq, increment_seq_replicate_max, Bool.false_eq_true, if_false]
  · intro buf hdec
    simp only [openCtx, hov, Bool.false_eq_true, if_false]
    rw [hdec]
    simp only [hseq, increment_seq_replicate_max, Bool.false_eq_true, if_false]
  · intro N c₀ c' hseq₀ hov₀ hch
    obtain ⟨-, -, hstate⟩ := opsChain_invariant hch hseq₀ hov₀
    rcases hstate with ⟨-, -, hlt⟩ | ⟨-, -, hcount⟩
    · omega
    · omega
  · intro c₀ hseq₀ hov₀
    exact opsChain_exists c₀ hseq₀ hov₀ _ (le_refl _)

theorem overflow_boundary_witness :
    sealCtx imp0 (AeadCtx.mk false [6] [] [255]) [4] [] =
      (Except.ok [], [4], AeadCtx.mk true [6] [] [0]) ∧
    (∃ c', opsChain (256 ^ 1) (AeadCtx.mk false [6] [] [0]) c') := by
  constructor
  · have h :=
      (overflow_boundary 1 imp0 (AeadCtx.mk false [6] [] [255]) rfl rfl [4] [] [] []).1
        [] [4] rfl
    simpa using h
  · exact (overflow_boundary 1 imp0 (AeadCtx.mk false [6] [] [255]) rfl rfl [4] [] [] []).2.2.2
      (AeadCtx.mk false [6] [] [0]) rfl rfl

/-- C2 counterexample: with the 12-byte nonce length of the supported AEADs, a
fresh context admits a run of 256 ^ 12 successful operations, strictly more
than the usable message count of 2 ^ (8·12) − 1 stated by the claim. -/
theorem usable_count_counterexample :
    (∃ c', opsChain (256 ^ 12)
      (AeadCtx.mk false (List.replicate 12 0) [] (List.replicate 12 0)) c') ∧
    256 ^ 12 - 1 < 256 ^ 12 := by
  constructor
  · exact opsChain_exists _ rfl rfl _ (le_refl _)
  · exact Nat.sub_lt (Nat.one_le_pow _ _ (by norm_num)) (by norm_num)

/-- C4: for a call not refused for overflow, the nonce handed to the AEAD is
the bytewise XOR of the base nonce with the current sequence bytes (the
counter stored big-endian at nonce width): the mixed nonce agrees elementwise
with the XOR, and seal and open observe their AEAD instance only at that
nonce, so two instances agreeing there behave identically. -/
theorem nonce_is_base_xor_seq (ctx : AeadCtx) (hov : ctx.overflowed = false)
    (imp imp' : AeadImpl) (pt aad ct tagIn : List Nat)
    (he : imp.encrypt (List.zipWith Nat.xor ctx.nonce ctx.seq) aad pt =
          imp'.encrypt (List.zipWith Nat.xor ctx.nonce ctx.seq) aad pt)
    (hd : imp.decrypt (List.zipWith Nat.xor ctx.nonce ctx.seq) aad ct tagIn =
          imp'.decrypt (List.zipWith Nat.xor ctx.nonce ctx.seq) aad ct tagIn) :
    (∀ i, i < ctx.nonce.length → i < ctx.seq.length →
      (mix_nonce ctx.nonce ctx.seq).getD i 0 =
        Nat.xor (ctx.nonce.getD i 0) (ctx.seq.getD i 0)) ∧
    sealCtx imp ctx pt aad = sealCtx imp' ctx pt aad ∧
    openCtx imp ctx ct aad tagIn = openCtx imp' ctx ct aad tagIn := by
  refine ⟨fun i h1 h2 => zipWith_xor_getD ctx.nonce ctx.seq i h1 h2, ?_, ?_⟩
  · simp only [sealCtx, hov, Bool.false_eq_true, if_false, mix_nonce]
    rw [he]
  · simp only [openCtx, hov, Bool.false_eq_true, if_false, mix_nonce]
    rw [hd]

theorem nonce_is_base_xor_seq_witness :
    (mix_nonce [5, 3] [1, 2]).getD 0 0 = Nat.xor 5 1 ∧
    (mix_nonce [5, 3] [1, 2]).getD 1 0 = Nat.xor 3 2 := by
  have h := nonce_is_base_xor_seq (AeadCtx.mk false [5, 3] [] [1, 2]) rfl
    imp0 imp0 [] [] [] [] rfl rfl
  exact ⟨by simpa using h.1 0 (by norm_num) (by norm_num),
    by simpa using h.1 1 (by norm_num) (by norm_num)⟩

/-- C5 (amended): a failing seal or open never mutates the context: on any
error the context is exactly as before the call; on success the base nonce and
exporter secret are untouched and the counter advances by exactly one with the
flag unchanged — except when the counter was at its maximum, where the success
wraps the counter to zero and raises the flag instead of advancing. -/
theorem failure_preserves_ctx (imp : AeadImpl) (ctx : AeadCtx)
    (pt aad ct tagIn : List Nat) (hwf : bytesWF ctx.seq) :
    (∀ e buf c', sealCtx imp ctx pt aad = (Except.error e, buf, c') → c' = ctx) ∧
    (∀ e buf c', openCtx imp ctx ct aad tagIn = (Except.error e, buf, c') → c' = ctx) ∧
    (∀ tag buf c', sealCtx imp ctx pt aad = (Except.ok tag, buf, c') →
      c'.nonce = ctx.nonce ∧ c'.exporterSecret = ctx.exporterSecret ∧
      (ctx.seq ≠ List.replicate ctx.seq.length 255 →
        beVal c'.seq = beVal ctx.seq + 1 ∧ c'.overflowed = ctx.overflowed) ∧
      (ctx.seq = List.replicate ctx.seq.length 255 →
        c'.seq = List.replicate ctx.seq.length 0 ∧ c'.overflowed = true)) ∧
    (∀ buf c', openCtx imp ctx ct aad tagIn = (Except.ok (), buf, c') →
      c'.nonce = ctx.nonce ∧ c'.exporterSecret = ctx.exporterSecret ∧
      (ctx.seq ≠ List.replicate ctx.seq.length 255 →
        beVal c'.seq = beVal ctx.seq + 1 ∧ c'.overflowed = ctx.overflowed) ∧
      (ctx.seq = List.replicate ctx.seq.length 255 →
        c'.seq = List.replicate ctx.seq.length 0 ∧ c'.overflowed = true)) := by
  refine ⟨?_, ?_, ?_, ?_⟩
  · intro e buf c' h
    exact sealCtx_error_ctx h
  · intro e buf c' h
    exact openCtx_error_ctx h
  · intro tag buf c' h
    exact incr_ctx_props ctx hwf c' (sealCtx_ok_cases h).2
  · intro buf c' h
    exact incr_ctx_props ctx hwf c' (openCtx_ok_cases h).2

theorem failure_preserves_ctx_witness :
    beVal (AeadCtx.mk false [9] [8] [1]).seq = beVal (AeadCtx.mk false [9] [8] [0]).seq + 1 ∧
    (AeadCtx.mk false [9] [8] [1]).overflowed = (AeadCtx.mk false [9] [8] [0]).overflowed :=
  ((failure_preserves_ctx imp0 (AeadCtx.mk false [9] [8] [0]) [] [] [] []
      (by decide)).2.2.1 [] [] (AeadCtx.mk false [9] [8] [1]) rfl).2.2.1 (by decide)

/-- C5 counterexample: on a context whose counter holds the maximum value, a
seal succeeds while the counter does not advance by one (it wraps to zero with
the flag raised), so the counter does not advance exactly when an operation
succeeds. -/
theorem seq_advance_counterexample :
    (sealCtx imp0 (AeadCtx.mk false (List.replicate 12 0) [] (List.replicate 12 255))
        [7] []).1 = Except.ok [] ∧
    (AeadCtx.mk false (List.replicate 12 0) [] (List.replicate 12 255)).overflowed = false ∧
    beVal (sealCtx imp0 (AeadCtx.mk false (List.replicate 12 0) [] (List.replicate 12 255))
        [7] []).2.2.seq ≠
      beVal (AeadCtx.mk false (List.replicate 12 0) [] (List.replicate 12 255)).seq + 1 := by
  refine ⟨rfl, rfl, ?_⟩
  decide

/-- C6: export computes the labeled expand of the exporter secret under the
label sec at the requested length; it fails with InvalidKdfLength exactly when
the requested length exceeds 255·Nh; it reads only the exporter secret, so any
context with the same exporter secret — whatever its counter or overflow flag —
exports the same bytes; and its value is invariant under any number of
interleaved successful seal/open operations. -/
theorem export_independent_of_seq (k : Kdf) (suiteId : List Nat) (ctx : AeadCtx)
    (info : List Nat) (L : Nat) :
    exportCtx k suiteId ctx info L =
      labeledExpand k suiteId ctx.exporterSecret secLabelBytes info L ∧
    (exportCtx k suiteId ctx info L = Except.error HpkeError.InvalidKdfLength ↔
      255 * k.Nh < L) ∧
    (L ≤ 255 * k.Nh → exportCtx k suiteId ctx info L =
      Except.ok (k.hkdfExpand ctx.exporterSecret
        (encodeU16 L ++ rfcLabelBytes ++ suiteId ++ secLabelBytes ++ info) L)) ∧
    (∀ ctx₂ : AeadCtx, ctx₂.exporterSecret = ctx.exporterSecret →
      exportCtx k suiteId ctx₂ info L = exportCtx k suiteId ctx info L) ∧
    (∀ N ctx', opsChain N ctx ctx' →
      exportCtx k suiteId ctx' info L = exportCtx k suiteId ctx info L) := by
  refine ⟨rfl, ?_, ?_, ?_, ?_⟩
  · by_cases h : 255 * k.Nh < L <;> simp [exportCtx, labeledExpand, h]
  · intro h
    simp [exportCtx, labeledExpand, Nat.not_lt.mpr h]
  · intro ctx₂ h
    simp [exportCtx, h]
  · intro N ctx' hch
    simp [exportCtx, (opsChain_preserves hch).2]

theorem export_independent_of_seq_witness :
    exportCtx (Kdf.mk 2 (fun _ _ L => List.replicate L 0)) [] (AeadCtx.mk true [] [7] [])
      [] 3 = Except.ok [0, 0, 0] ∧
    exportCtx (Kdf.mk 2 (fun _ _ L => List.replicate L 0)) [] (AeadCtx.mk true [] [7] [])
      [] 511 = Except.error HpkeError.InvalidKdfLength := by
  constructor
  · have h := (export_independent_of_seq (Kdf.mk 2 (fun _ _ L => List.replicate L 0)) []
      (AeadCtx.mk true [] [7] []) [] 3).2.2.1 (by norm_num)
    simpa using h
  · exact (export_independent_of_seq (Kdf.mk 2 (fun _ _ L => List.replicate L 0)) []
      (AeadCtx.mk true [] [7] []) [] 511).2.1.mpr (by norm_num)

/-- C7: serialization round-trips for X25519 public and private keys, and
deserialization of a byte string of the wrong length returns InvalidEncoding —
32 bytes for keys, 16 bytes for the AEAD tag. -/
theorem marshal_roundtrip (pk sk b t : List Nat) (hpk : pk.length = 32)
    (hsk : sk.length = 32) (hb : b.length ≠ 32) (ht : t.length ≠ 16) :
    pubkey_unmarshal (pubkey_marshal pk) = Except.ok pk ∧
    privkey_unmarshal (privkey_marshal sk) = Except.ok sk ∧
    pubkey_unmarshal b = Except.error HpkeError.InvalidEncoding ∧
    privkey_unmarshal b = Except.error HpkeError.InvalidEncoding ∧
    tag_unmarshal t = Except.error HpkeError.InvalidEncoding := by
  refine ⟨?_, ?_, ?_, ?_, ?_⟩ <;>
    simp [pubkey_unmarshal, privkey_unmarshal, tag_unmarshal, pubkey_marshal,
      privkey_marshal, hpk, hsk, hb, ht]

theorem marshal_roundtrip_witness :
    pubkey_unmarshal (pubkey_marshal (List.replicate 32 5)) =
      Except.ok (List.replicate 32 5) ∧
    privkey_unmarshal (privkey_marshal (List.replicate 32 9)) =
      Except.ok (List.replicate 32 9) ∧
    pubkey_unmarshal [1] = Except.error HpkeError.InvalidEncoding ∧
    privkey_unmarshal [1] = Except.error HpkeError.InvalidEncoding ∧
    tag_unmarshal [] = Except.error HpkeError.InvalidEncoding :=
  marshal_roundtrip (List.replicate 32 5) (List.replicate 32 9) [1] []
    (by simp) (by simp) (by simp) (by simp)

/-- C8: kex fails with InvalidKeyExchange exactly when the raw Diffie-Hellman
result is the all-zero 32-byte string, and otherwise returns the raw DH result
unchanged. -/
theorem kex_zero_check (K : KexImpl) (sk pk : List Nat) :
    (kex K sk pk = Except.error HpkeError.InvalidKeyExchange ↔
      K.dh sk pk = List.replicate 32 0) ∧
    (K.dh sk pk ≠ List.replicate 32 0 → kex K sk pk = Except.ok (K.dh sk pk)) := by
  constructor
  · by_cases h : K.dh sk pk = List.replicate 32 0 <;> simp [kex, h]
  · intro h
    simp only [kex]
    rw [if_neg h]

theorem kex_zero_check_witness :
    kex (KexImpl.mk fun _ _ => List.replicate 32 0) [] [] =
      Except.error HpkeError.InvalidKeyExchange ∧
    kex (KexImpl.mk fun _ _ => List.replicate 32 1) [] [] =
      Except.ok (List.replicate 32 1) :=
  ⟨(kex_zero_check (KexImpl.mk fun _ _ => List.replicate 32 0) [] []).1.mpr rfl,
    (kex_zero_check (KexImpl.mk fun _ _ => List.replicate 32 1) [] []).2 (by decide)⟩

/-- C9: public-key deserialization never clamps: every 32-byte string
deserializes successfully, and serializing the resulting key yields the same
bytes again — a pure byte copy on arbitrary 32-byte inputs. -/
theorem pubkey_no_clamp (b : List Nat) (hb : b.length = 32) :
    (pubkey_unmarshal b).map pubkey_marshal = Except.ok b := by
  simp [pubkey_unmarshal, pubkey_marshal, hb, Except.map]

theorem pubkey_no_clamp_witness :
    (pubkey_unmarshal (List.replicate 32 254)).map pubkey_marshal =
      Except.ok (List.replicate 32 254) :=
  pubkey_no_clamp (List.replicate 32 254) (by simp)

/-- C10: single_shot_seal is exactly setup_sender followed by one seal on the
resulting context, and single_shot_open is exactly setup_receiver followed by
one open, a failure of either step being returned unchanged and the buffer
holding whatever that composition produced. -/
theorem single_shot_composition {M P I R S E : Type}
    (setup_sender : M → P → I → R → Except HpkeError (List Nat × AeadCtx))
    (setup_receiver : M → S → E → I → Except HpkeError AeadCtx)
    (imp : AeadImpl) (mode : M) (pk_recip : P) (sk_recip : S) (encapped_key : E)
    (info : I) (pt ct aad tagIn : List Nat) (csprng : R) :
    single_shot_seal setup_sender imp mode pk_recip info pt aad csprng =
      single_shot_seal_spec setup_sender imp mode pk_recip info pt aad csprng ∧
    single_shot_open setup_receiver imp mode sk_recip encapped_key info ct aad tagIn =
      single_shot_open_spec setup_receiver imp mode sk_recip encapped_key info ct aad tagIn := by
  constructor
  · unfold single_shot_seal single_shot_seal_spec
    cases setup_sender mode pk_recip info csprng with
    | error e => rfl
    | ok pair =>
      rcases pair with ⟨ek, c⟩
      rcases h : sealCtx imp c pt aad with ⟨r, buf, c'⟩
      cases r <;> simp [h, Except.map]
  · unfold single_shot_open single_shot_open_spec
    cases setup_receiver mode sk_recip encapped_key info with
    | error e => rfl
    | ok c =>
      rcases h : openCtx imp c ct aad tagIn with ⟨r, buf, c'⟩
      simp [h]
